import Mathlib

/-!
Verification of the candidate-generation, parsing, correction and scoring
logic of the Telugu OCR post-processing tool (`app_pp.py`).

Strings are Lean `String`s, confidences are modelled as `ℚ`, the Python
`editdistance.eval` (unit-cost Levenshtein distance) is modelled by
Mathlib's `levenshtein` with `Levenshtein.defaultCost`, and Python
exceptions (`ValueError` from `float`, `ZeroDivisionError`, `IndexError`)
are modelled by `Option`/`none`.  The Python dictionary `set` is modelled
as a `List String` giving the set's (unspecified) iteration order;
membership in the set is list membership.
-/

namespace OCRTool

/-- `editdistance.eval(a, b)`: unit-cost Levenshtein distance. -/
def editDist (a b : String) : Nat :=
  levenshtein Levenshtein.defaultCost a.data b.data

/-- `is_telugu_word(word)`: `telugu_pattern.fullmatch(word)` with
`telugu_pattern = re.compile(r'^[ఀ-౿]+$')`, i.e. `word` is
non-empty and every character lies in the Telugu block U+0C00..U+0C7F. -/
def is_telugu_word (w : String) : Bool :=
  !w.data.isEmpty && w.data.all fun c => 0x0C00 ≤ c.toNat && c.toNat ≤ 0x0C7F

/-- Python `line.strip()`: drop leading and trailing whitespace. -/
def pyStrip (s : String) : String :=
  ⟨((s.data.dropWhile Char.isWhitespace).reverse.dropWhile Char.isWhitespace).reverse⟩

/-- Python `s.split(sep)` for a single separator character: split on
every occurrence, never collapsing (so `"".split == [""]`). -/
def pySplit (sep : Char) : List Char → List (List Char)
  | [] => [[]]
  | c :: rest =>
    if c = sep then [] :: pySplit sep rest
    else
      match pySplit sep rest with
      | [] => [[c]]
      | f :: r => (c :: f) :: r

/-- `line.strip().split('\t')` as a list of strings. -/
def pyFields (line : String) : List String :=
  (pySplit '\t' (pyStrip line).data).map fun l => ⟨l⟩

/-- The three tab-separated fields of a (stripped) corpus line, when the
line splits into exactly three fields (`len(parts) != 3` otherwise). -/
def goodParts (line : String) : Option (String × String × String) :=
  match pyFields line with
  | [gt, pred, prob] => some (gt, pred, prob)
  | _ => none

/-- `read_data`: parses corpus lines into three parallel lists, skipping
lines that do not split into exactly three tab-separated fields and
aborting (`none`, modelling the `ValueError` of `float(prob)`) as soon as
a retained line's third field does not parse.  The float parser is a
parameter `pf` abstracting Python's `float`. -/
def read_data (pf : String → Option ℚ) : List String → Option (List String × List String × List ℚ)
  | [] => some ([], [], [])
  | line :: rest =>
    match pyFields line with
    | [gt, pred, prob] =>
      match pf prob with
      | none => none
      | some q =>
        match read_data pf rest with
        | none => none
        | some (gs, ps, qs) => some (gt :: gs, pred :: ps, q :: qs)
    | _ => read_data pf rest

/-- Python's `w.startswith(first_char)` for a single character
`first_char`: `w` is non-empty and its first character is `first_char`. -/
def startswith1 (w : String) (fc : Char) : Bool :=
  w.data.head? == some fc

/-- `[w for w in dictionary if w.startswith(first_char)]`. -/
def candidatesFor (dict : List String) (fc : Char) : List String :=
  dict.filter fun w => startswith1 w fc

/-- `[(w, editdistance.eval(pred, w)) for w in candidates]`. -/
def distancesFor (p : String) (cands : List String) : List (String × Nat) :=
  cands.map fun w => (w, editDist p w)

/-- `min(...)` over a list of naturals (only used on non-empty lists,
mirroring Python's `min` over a non-empty generator). -/
def listMin : List Nat → Nat
  | [] => 0
  | a :: l => l.foldl min a

/-- `min_dist = min(d[1] for d in distances)` (guarded by
`if not distances` in the code, so only used when there are candidates). -/
def minDistFor (dict : List String) (p : String) (fc : Char) : Nat :=
  listMin ((distancesFor p (candidatesFor dict fc)).map Prod.snd)

/-- `tied = [w for w, d in distances if d == min_dist]`. -/
def tiedFor (dict : List String) (p : String) (fc : Char) : List String :=
  ((distancesFor p (candidatesFor dict fc)).filter
    fun wd => wd.2 == minDistFor dict p fc).map Prod.fst

/-- A flagged word offered for human review (`review_data` entry). -/
structure ReviewItem where
  index : Nat
  word : String
  prob : ℚ
  candidates : List String
deriving DecidableEq, Repr

/-- One iteration of the `review` loop at position `idx` with prediction
`p` and confidence `c`: `none` when the loop `continue`s, `some item`
when it appends a review entry. -/
def reviewAt (dict : List String) (probT : ℚ) (distT : Nat) (idx : Nat)
    (p : String) (c : ℚ) : Option ReviewItem :=
  if is_telugu_word p = false ∨ p ∈ dict ∨ probT < c then none
  else
    match p.data with
    | [] => none
    | fc :: _ =>
      if distancesFor p (candidatesFor dict fc) = [] then none
      else if distT < minDistFor dict p fc then none
      else if 1 < (tiedFor dict p fc).length then
        some ⟨idx, p, c, tiedFor dict p fc⟩
      else none

/-- The `for idx, (pred, prob) in enumerate(zip(pred_list, prob_list))`
loop, accumulating review entries in position order. -/
def reviewLoop (dict : List String) (probT : ℚ) (distT : Nat) :
    Nat → List (String × ℚ) → List ReviewItem
  | _, [] => []
  | idx, (p, c) :: rest =>
    match reviewAt dict probT distT idx p c with
    | none => reviewLoop dict probT distT (idx + 1) rest
    | some item => item :: reviewLoop dict probT distT (idx + 1) rest

/-- The candidate generator of the `/review` route: `review_data`. -/
def review (dict : List String) (probT : ℚ) (distT : Nat)
    (preds : List String) (probs : List ℚ) : List ReviewItem :=
  reviewLoop dict probT distT 0 (preds.zip probs)

/-- The correction loop of the `/process` route:
`pred_list[idx] = request.form[key]` for each correction key, in form
order; `none` models the `IndexError` raised by an out-of-range index. -/
def applyCorrections (preds : List String) : List (Nat × String) → Option (List String)
  | [] => some preds
  | (i, w) :: rest =>
    if i < preds.length then applyCorrections (preds.set i w) rest
    else none

/-- `word_accuracy(gt, pred)`:
`sum(g == p for g, p in zip(gt, pred)) / len(gt)`; `none` models the
`ZeroDivisionError` when `len(gt) == 0`. -/
def word_accuracy (gt pred : List String) : Option ℚ :=
  if gt.length = 0 then none
  else some ((((gt.zip pred).filter fun gp => gp.1 == gp.2).length : ℚ) / (gt.length : ℚ))

/-- `char_accuracy(gt, pred)`:
`sum(len(g) - editdistance.eval(g, p) for g, p in zip(gt, pred)) / sum(len(g) for g in gt)`;
`none` models the `ZeroDivisionError` when the total ground-truth
character count is zero. -/
def char_accuracy (gt pred : List String) : Option ℚ :=
  if (gt.map String.length).sum = 0 then none
  else
    some (((((gt.zip pred).map fun gp => (gp.1.length : ℤ) - (editDist gp.1 gp.2 : ℤ)).sum : ℤ) : ℚ)
      / ((gt.map String.length).sum : ℚ))

/-- The `/process` pipeline after re-reading the corpus: apply the
corrections, then compute both accuracies; any failure aborts before an
output file is produced. -/
def processResult (gt preds : List String) (m : List (Nat × String)) :
    Option (List String × ℚ × ℚ) :=
  match applyCorrections preds m with
  | none => none
  | some preds2 =>
    match word_accuracy gt preds2, char_accuracy gt preds2 with
    | some w, some c => some (preds2, w, c)
    | _, _ => none

/-- The character-accuracy formula as the spec writes it, indexed over
positions `i`: `sum(len(gt[i]) - editdistance(gt[i], pred[i])) / sum(len(gt[i]))`. -/
def char_accuracy_spec (gt pred : List String) : ℚ :=
  ((((List.range gt.length).map fun i =>
      ((gt.getD i "").length : ℤ) - (editDist (gt.getD i "") (pred.getD i "") : ℤ)).sum : ℤ) : ℚ)
    / ((((List.range gt.length).map fun i => (gt.getD i "").length).sum : ℕ) : ℚ)

/-- The word-accuracy formula as the spec writes it: the fraction of
positions `i` where `gt[i] == pred[i]`, over the total number of
positions. -/
def word_accuracy_spec (gt pred : List String) : ℚ :=
  ((((List.range gt.length).filter fun i => gt.getD i "" == pred.getD i "").length : ℚ))
    / (gt.length : ℚ)

/-! ### Helper lemmas -/

theorem editDist_self (s : String) : editDist s s = 0 := by
  show levenshtein Levenshtein.defaultCost s.data s.data = 0
  induction s.data with
  | nil => simp [levenshtein_nil_nil]
  | cons x xs ih =>
    refine Nat.le_antisymm ?_ (Nat.zero_le _)
    calc levenshtein Levenshtein.defaultCost (x :: xs) (x :: xs)
        ≤ Levenshtein.defaultCost.substitute x x +
            levenshtein Levenshtein.defaultCost xs xs := by
          rw [levenshtein_cons_cons]
          exact le_trans (min_le_right _ _) (min_le_right _ _)
      _ = 0 := by rw [ih]; simp [Levenshtein.defaultCost]

theorem filter_beq_zip_range (gt : List String) : ∀ (pred : List String),
    gt.length = pred.length →
    ((gt.zip pred).filter fun gp => gp.1 == gp.2).length
      = ((List.range gt.length).filter fun i => gt.getD i "" == pred.getD i "").length := by
  induction gt with
  | nil => intro pred _; simp
  | cons g gs ih =>
    intro pred hlen
    cases pred with
    | nil => simp at hlen
    | cons p ps =>
      simp only [List.length_cons, Nat.succ_inj] at hlen
      simp only [List.zip_cons_cons, List.length_cons, List.range_succ_eq_map,
        List.filter_cons, List.getD_cons_zero, List.filter_map, List.length_map,
        Function.comp_def, List.getD_cons_succ]
      by_cases hgp : (g == p) = true <;> simp [hgp, ih ps hlen]

theorem filter_beq_zip_self (gt : List String) :
    ((gt.zip gt).filter fun gp => gp.1 == gp.2).length = gt.length := by
  induction gt with
  | nil => simp
  | cons g gs ih => simp [List.zip_cons_cons, List.filter_cons, ih]

theorem sum_zip_range (gt : List String) : ∀ (pred : List String),
    gt.length = pred.length →
    ((gt.zip pred).map fun gp => (gp.1.length : ℤ) - (editDist gp.1 gp.2 : ℤ)).sum
      = ((List.range gt.length).map fun i =>
          ((gt.getD i "").length : ℤ) - (editDist (gt.getD i "") (pred.getD i "") : ℤ)).sum := by
  induction gt with
  | nil => intro pred _; simp
  | cons g gs ih =>
    intro pred hlen
    cases pred with
    | nil => simp at hlen
    | cons p ps =>
      simp only [List.length_cons, Nat.succ_inj] at hlen
      simp only [List.zip_cons_cons, List.length_cons, List.range_succ_eq_map,
        List.map_cons, List.map_map, Function.comp_def, List.getD_cons_zero,
        List.getD_cons_succ, List.sum_cons]
      rw [ih ps hlen]

theorem sum_len_range (gt : List String) :
    (gt.map String.length).sum
      = ((List.range gt.length).map fun i => (gt.getD i "").length).sum := by
  induction gt with
  | nil => simp
  | cons g gs ih =>
    simp only [List.map_cons, List.sum_cons, List.length_cons, List.range_succ_eq_map,
      List.map_map, Function.comp_def, List.getD_cons_zero, List.getD_cons_succ]
    rw [ih]

/-! ### Claims about the Scorer -/

/-- C5: `word_accuracy(gt, pred)` equals the fraction of positions `i` with
`gt[i] == pred[i]` over the total number of positions, and consequently
`word_accuracy(gt, gt) == 1.0` for every non-empty sequence `gt`. -/
theorem claim_C5_word_accuracy (gt pred : List String) :
    (gt.length = pred.length → gt ≠ [] →
      word_accuracy gt pred = some (word_accuracy_spec gt pred)) ∧
    (gt ≠ [] → word_accuracy gt gt = some 1) := by
  constructor
  · intro hlen hne
    have hz : ¬ gt.length = 0 := by simpa [List.length_eq_zero] using hne
    rw [word_accuracy, if_neg hz, word_accuracy_spec, filter_beq_zip_range gt pred hlen]
  · intro hne
    have hz : ¬ gt.length = 0 := by simpa [List.length_eq_zero] using hne
    rw [word_accuracy, if_neg hz, filter_beq_zip_self]
    have : ((gt.length : ℚ)) ≠ 0 := by exact_mod_cast hz
    simp [div_self this]

/-- C5 witness: the formula and the round trip, at concrete input. -/
theorem claim_C5_witness :
    ((["అ", "ఆ"] : List String).length = (["అ", "అ"] : List String).length
      ∧ (["అ", "ఆ"] : List String) ≠ []) ∧
    word_accuracy ["అ", "ఆ"] ["అ", "అ"] = some (word_accuracy_spec ["అ", "ఆ"] ["అ", "అ"]) ∧
    word_accuracy ["అ", "ఆ"] ["అ", "ఆ"] = some 1 :=
  ⟨⟨by decide, by decide⟩,
    (claim_C5_word_accuracy ["అ", "ఆ"] ["అ", "అ"]).1 (by decide) (by decide),
    (claim_C5_word_accuracy ["అ", "ఆ"] ["అ", "అ"]).2 (by decide)⟩

/-- C4: `char_accuracy(gt, pred)` equals exactly
`sum(len(gt[i]) - editdistance(gt[i], pred[i])) / sum(len(gt[i]))`, with no
clamping of negative per-item contributions or of results outside `[0,1]`;
in particular `char_accuracy(["అమ్మ"], ["అమ్మ"]) = 1.0`, and a garbage
prediction can drive the value below `0` (no clamping). -/
theorem claim_C4_char_accuracy (gt pred : List String)
    (hlen : gt.length = pred.length) (hden : (gt.map String.length).sum ≠ 0) :
    char_accuracy gt pred = some (char_accuracy_spec gt pred) ∧
    char_accuracy ["అమ్మ"] ["అమ్మ"] = some 1 ∧
    char_accuracy ["అ"] ["ఆఆఆఆఆ"] = some (-4) := by
  refine ⟨?_, ?_, ?_⟩
  · rw [char_accuracy, if_neg hden, char_accuracy_spec]
    rw [sum_zip_range gt pred hlen, ← sum_len_range]
  · have h : editDist "అమ్మ" "అమ్మ" = 0 := editDist_self _
    have hl : ("అమ్మ" : String).length = 4 := by decide
    simp [char_accuracy, h, hl]
  · have h : editDist "అ" "ఆఆఆఆఆ" = 5 := by decide
    have hl : ("అ" : String).length = 1 := by decide
    have hl2 : ("ఆఆఆఆఆ" : String).length = 5 := by decide
    simp [char_accuracy, h, hl, hl2]

/-- C4 witness: the exact-formula equation at a concrete input with a
negative contribution (showing nothing is clamped). -/
theorem claim_C4_witness :
    ((["అ", "అఆ"] : List String).length = (["ఆఆఆఆఆ", "అఆ"] : List String).length
      ∧ ((["అ", "అఆ"] : List String).map String.length).sum ≠ 0) ∧
    char_accuracy ["అ", "అఆ"] ["ఆఆఆఆఆ", "అఆ"]
      = some (char_accuracy_spec ["అ", "అఆ"] ["ఆఆఆఆఆ", "అఆ"]) :=
  ⟨⟨by decide, by decide⟩,
    (claim_C4_char_accuracy ["అ", "అఆ"] ["ఆఆఆఆఆ", "అఆ"] (by decide) (by decide)).1⟩

/-- C10: the scorers are partial on degenerate input: `word_accuracy`
hits a division by zero exactly when the ground-truth sequence is empty,
`char_accuracy` exactly when the total ground-truth character count is
zero (including a non-empty all-empty-strings sequence); under the
respective preconditions both are defined. -/
theorem claim_C10_scorer_partiality (gt pred : List String) :
    (word_accuracy gt pred = none ↔ gt = []) ∧
    (char_accuracy gt pred = none ↔ (gt.map String.length).sum = 0) ∧
    (gt ≠ [] → (word_accuracy gt pred).isSome = true) ∧
    ((gt.map String.length).sum ≠ 0 → (char_accuracy gt pred).isSome = true) ∧
    char_accuracy ["", ""] ["అ", "ఆ"] = none ∧
    word_accuracy [] [] = none := by
  have h1 : word_accuracy gt pred = none ↔ gt = [] := by
    rw [word_accuracy]
    split_ifs with h
    · simpa [List.length_eq_zero] using h
    · simpa [List.length_eq_zero] using h
  have h2 : char_accuracy gt pred = none ↔ (gt.map String.length).sum = 0 := by
    rw [char_accuracy]
    split_ifs with h
    · simpa using h
    · simpa using h
  refine ⟨h1, h2, ?_, ?_, by rfl, by rfl⟩
  · intro hne
    rw [word_accuracy, if_neg (by simpa [List.length_eq_zero] using hne)]
    rfl
  · intro hden
    rw [char_accuracy, if_neg hden]
    rfl

/-- C10 witness: definedness at concrete non-degenerate input. -/
theorem claim_C10_witness :
    ((["అ"] : List String) ≠ [] ∧ ((["అ"] : List String).map String.length).sum ≠ 0) ∧
    (word_accuracy ["అ"] ["ఆ"]).isSome = true ∧
    (char_accuracy ["అ"] ["ఆ"]).isSome = true :=
  ⟨⟨by decide, by decide⟩,
    (claim_C10_scorer_partiality ["అ"] ["ఆ"]).2.2.1 (by decide),
    (claim_C10_scorer_partiality ["అ"] ["ఆ"]).2.2.2.1 (by decide)⟩

/-! ### Claim about the Script Classifier -/

/-- C8: `is_script_word(s)` (here `is_telugu_word`) is true iff `s` is
non-empty and every character's codepoint lies in U+0C00..U+0C7F; in
particular it is false on the empty string and on any string containing
an out-of-block character (digits, punctuation, ...). -/
theorem claim_C8_is_script_word (s : String) :
    (is_telugu_word s = true ↔
      s.data ≠ [] ∧ ∀ c ∈ s.data, 0x0C00 ≤ c.toNat ∧ c.toNat ≤ 0x0C7F) ∧
    (∀ c ∈ s.data, (c.toNat < 0x0C00 ∨ 0x0C7F < c.toNat) → is_telugu_word s = false) ∧
    is_telugu_word "" = false ∧
    is_telugu_word "అమ్మ" = true ∧
    is_telugu_word "123" = false ∧
    is_telugu_word "అమ్మ." = false := by
  have hiff : is_telugu_word s = true ↔
      s.data ≠ [] ∧ ∀ c ∈ s.data, 0x0C00 ≤ c.toNat ∧ c.toNat ≤ 0x0C7F := by
    simp [is_telugu_word, List.all_eq_true, List.isEmpty_iff]
  refine ⟨hiff, ?_, by decide, by decide, by decide, by decide⟩
  intro c hc hout
  by_contra hT
  rw [Bool.not_eq_false] at hT
  have := (hiff.mp hT).2 c hc
  omega

/-- C8 witness: a digit makes classification fail, via the theorem. -/
theorem claim_C8_witness :
    ('1' ∈ ("అ1" : String).data ∧ ('1'.toNat < 0x0C00 ∨ 0x0C7F < '1'.toNat)) ∧
    is_telugu_word "అ1" = false :=
  ⟨⟨by decide, by decide⟩,
    (claim_C8_is_script_word "అ1").2.1 '1' (by decide) (by decide)⟩

/-! ### Claims about the Correction Applicator -/

theorem applyCorrections_none_iff (m : List (Nat × String)) : ∀ (preds : List String),
    (applyCorrections preds m = none ↔ ∃ q ∈ m, preds.length ≤ q.1) := by
  induction m with
  | nil => intro preds; simp [applyCorrections]
  | cons q rest ih =>
    intro preds
    obtain ⟨i, w⟩ := q
    simp only [applyCorrections]
    split_ifs with h
    · rw [ih (preds.set i w), List.length_set]
      constructor
      · rintro ⟨q, hq, hle⟩
        exact ⟨q, List.mem_cons_of_mem _ hq, hle⟩
      · rintro ⟨q, hq, hle⟩
        rcases List.mem_cons.mp hq with rfl | hq
        · omega
        · exact ⟨q, hq, hle⟩
    · simp only [true_iff]
      exact ⟨(i, w), List.mem_cons_self _ _, by omega⟩

/-- C6: applying a CorrectionMap replaces exactly the mapped positions with
their chosen strings, leaves every unmapped position unchanged, preserves
the length, and the empty CorrectionMap is the identity (the model is a
pure function, as the contract demands). -/
theorem claim_C6_apply_corrections (preds : List String) (m : List (Nat × String))
    (hnd : (m.map Prod.fst).Nodup) (hlt : ∀ q ∈ m, q.1 < preds.length) :
    applyCorrections preds [] = some preds ∧
    ∃ res, applyCorrections preds m = some res ∧
      res.length = preds.length ∧
      (∀ q ∈ m, res[q.1]? = some q.2) ∧
      (∀ j : Nat, (∀ w, (j, w) ∉ m) → res[j]? = preds[j]?) := by
  refine ⟨rfl, ?_⟩
  induction m generalizing preds with
  | nil =>
    exact ⟨preds, rfl, rfl, by simp, fun j _ => rfl⟩
  | cons q rest ih =>
    obtain ⟨i, w⟩ := q
    have hi : i < preds.length := hlt (i, w) (List.mem_cons_self _ _)
    simp only [List.map_cons, List.nodup_cons] at hnd
    obtain ⟨hik, hnd'⟩ := hnd
    have hlt' : ∀ q ∈ rest, q.1 < (preds.set i w).length := by
      intro q hq
      rw [List.length_set]
      exact hlt q (List.mem_cons_of_mem _ hq)
    obtain ⟨res, hres, hlen, hmap, hunmap⟩ := ih (preds.set i w) hnd' hlt'
    have hikey : ∀ w', (i, w') ∉ rest := by
      intro w' hw'
      exact hik (List.mem_map.mpr ⟨(i, w'), hw', rfl⟩)
    refine ⟨res, ?_, ?_, ?_, ?_⟩
    · simp only [applyCorrections, if_pos hi]
      exact hres
    · rw [hlen, List.length_set]
    · intro q hq
      rcases List.mem_cons.mp hq with rfl | hq
      · rw [hunmap i hikey, List.getElem?_set_self]
        simp [hi]
      · exact hmap q hq
    · intro j hj
      have hji : j ≠ i := by
        intro rfl1
        exact hj w (by rw [rfl1]; exact List.mem_cons_self _ _)
      have hjrest : ∀ w', (j, w') ∉ rest := by
        intro w' hw'
        exact hj w' (List.mem_cons_of_mem _ hw')
      rw [hunmap j hjrest, List.getElem?_set_ne (fun h => hji h.symm)]

/-- C6 witness: a two-entry map on a three-element sequence. -/
theorem claim_C6_witness :
    ((([(0, "x"), (2, "y")] : List (Nat × String)).map Prod.fst).Nodup
      ∧ (∀ q ∈ ([(0, "x"), (2, "y")] : List (Nat × String)),
          q.1 < (["a", "b", "c"] : List String).length)) ∧
    (applyCorrections ["a", "b", "c"] [] = some ["a", "b", "c"] ∧
      ∃ res, applyCorrections ["a", "b", "c"] [(0, "x"), (2, "y")] = some res ∧
        res.length = (["a", "b", "c"] : List String).length ∧
        (∀ q ∈ ([(0, "x"), (2, "y")] : List (Nat × String)), res[q.1]? = some q.2) ∧
        (∀ j : Nat, (∀ w, (j, w) ∉ ([(0, "x"), (2, "y")] : List (Nat × String))) →
          res[j]? = (["a", "b", "c"] : List String)[j]?)) :=
  ⟨⟨by decide, by decide⟩,
    claim_C6_apply_corrections ["a", "b", "c"] [(0, "x"), (2, "y")] (by decide) (by decide)⟩

/-- C9: correction application is partial in the correction positions: it
fails (Python `IndexError`, modelled as `none`) iff some correction key is
`≥` the length of the prediction sequence, in which case the `/process`
pipeline aborts before producing accuracies or output; under the
precondition that every position is a valid index it succeeds. -/
theorem claim_C9_out_of_range (gt preds : List String) (m : List (Nat × String)) :
    (applyCorrections preds m = none ↔ ∃ q ∈ m, preds.length ≤ q.1) ∧
    ((∀ q ∈ m, q.1 < preds.length) → (applyCorrections preds m).isSome = true) ∧
    ((∃ q ∈ m, preds.length ≤ q.1) → processResult gt preds m = none) := by
  refine ⟨applyCorrections_none_iff m preds, ?_, ?_⟩
  · intro hall
    cases h : applyCorrections preds m with
    | none =>
      obtain ⟨q, hq, hle⟩ := (applyCorrections_none_iff m preds).mp h
      have := hall q hq
      omega
    | some res => rfl
  · intro hex
    have hnone : applyCorrections preds m = none :=
      (applyCorrections_none_iff m preds).mpr hex
    simp [processResult, hnone]

/-- C9 witness: a valid map succeeds; an out-of-range key kills the pipeline. -/
theorem claim_C9_witness :
    ((∀ q ∈ ([(0, "x")] : List (Nat × String)), q.1 < (["a"] : List String).length)
      ∧ (∃ q ∈ ([(5, "y")] : List (Nat × String)), (["a"] : List String).length ≤ q.1)) ∧
    (applyCorrections ["a"] [(0, "x")]).isSome = true ∧
    processResult [] ["a"] [(5, "y")] = none :=
  ⟨⟨by decide, by decide⟩,
    (claim_C9_out_of_range [] ["a"] [(0, "x")]).2.1 (by decide),
    (claim_C9_out_of_range [] ["a"] [(5, "y")]).2.2 (by decide)⟩

/-! ### Claims about the Corpus Reader -/

theorem goodParts_none_of_bad_arity {l : String}
    (h : (pyFields l).length ≠ 3) : goodParts l = none := by
  rw [goodParts]
  rcases h3 : pyFields l with _ | ⟨a, _ | ⟨b, _ | ⟨c, _ | ⟨d, t⟩⟩⟩⟩ <;> simp_all

theorem goodParts_inv {l : String} {a b c : String} (h : goodParts l = some (a, b, c)) :
    pyFields l = [a, b, c] := by
  rw [goodParts] at h
  rcases h3 : pyFields l with _ | ⟨x, _ | ⟨y, _ | ⟨z, _ | ⟨d, t⟩⟩⟩⟩ <;> simp_all

theorem read_data_cons_bad {pf : String → Option ℚ} {l : String} {ls : List String}
    (h : goodParts l = none) : read_data pf (l :: ls) = read_data pf ls := by
  rw [goodParts] at h
  rcases h3 : pyFields l with _ | ⟨a, _ | ⟨b, _ | ⟨c, _ | ⟨d, t⟩⟩⟩⟩ <;>
    simp_all [read_data]

theorem read_data_cons_pf_none {pf : String → Option ℚ} {l : String} {ls : List String}
    {a b c : String} (h3 : pyFields l = [a, b, c]) (hpf : pf c = none) :
    read_data pf (l :: ls) = none := by
  simp [read_data, h3, hpf]

theorem read_data_cons_tail_none {pf : String → Option ℚ} {l : String} {ls : List String}
    {a b c : String} {q : ℚ} (h3 : pyFields l = [a, b, c]) (hpf : pf c = some q)
    (hrd : read_data pf ls = none) : read_data pf (l :: ls) = none := by
  simp [read_data, h3, hpf, hrd]

theorem read_data_cons_tail_some {pf : String → Option ℚ} {l : String} {ls : List String}
    {a b c : String} {q : ℚ} {gs ps : List String} {qs : List ℚ}
    (h3 : pyFields l = [a, b, c]) (hpf : pf c = some q)
    (hrd : read_data pf ls = some (gs, ps, qs)) :
    read_data pf (l :: ls) = some (a :: gs, b :: ps, q :: qs) := by
  simp [read_data, h3, hpf, hrd]

theorem read_data_isSome (pf : String → Option ℚ) : ∀ (lines : List String),
    ((read_data pf lines).isSome = true ↔
      ∀ t ∈ lines.filterMap goodParts, (pf t.2.2).isSome = true) := by
  intro lines
  induction lines with
  | nil => simp [read_data]
  | cons l ls ih =>
    rcases hg : goodParts l with _ | ⟨⟨a, b, c⟩⟩
    · rw [read_data_cons_bad hg]
      simp only [List.filterMap_cons, hg]
      exact ih
    · have h3 := goodParts_inv hg
      have hfm : List.filterMap goodParts (l :: ls)
          = (a, b, c) :: List.filterMap goodParts ls := by
        simp [List.filterMap_cons, hg]
      cases hpf : pf c with
      | none =>
        rw [read_data_cons_pf_none h3 hpf]
        refine iff_of_false (by simp) ?_
        intro hall
        have := hall (a, b, c) (by rw [hfm]; exact List.mem_cons_self _ _)
        simp [hpf] at this
      | some q =>
        cases hrd : read_data pf ls with
        | none =>
          rw [read_data_cons_tail_none h3 hpf hrd]
          rw [hrd] at ih
          refine iff_of_false (by simp) ?_
          intro hall
          have := ih.mpr fun t ht =>
            hall t (by rw [hfm]; exact List.mem_cons_of_mem _ ht)
          simp at this
        | some gpq =>
          obtain ⟨gs, ps, qs⟩ := gpq
          rw [read_data_cons_tail_some h3 hpf hrd]
          rw [hrd] at ih
          simp only [Option.isSome_some, true_iff] at ih
          refine iff_of_true rfl ?_
          intro t ht
          rw [hfm] at ht
          rcases List.mem_cons.mp ht with rfl | ht'
          · simp [hpf]
          · exact ih t ht'

theorem read_data_success (pf : String → Option ℚ) : ∀ (lines g p : List String)
    (q : List ℚ), read_data pf lines = some (g, p, q) →
      g = (lines.filterMap goodParts).map (fun t => t.1) ∧
      p = (lines.filterMap goodParts).map (fun t => t.2.1) ∧
      g.length = p.length ∧ p.length = q.length ∧
      List.Forall₂ (fun t x => pf t.2.2 = some x) (lines.filterMap goodParts) q := by
  intro lines
  induction lines with
  | nil =>
    intro g p q h
    simp only [read_data, Option.some_inj, Prod.mk.injEq] at h
    obtain ⟨rfl, rfl, rfl⟩ := h
    exact ⟨rfl, rfl, rfl, rfl, List.Forall₂.nil⟩
  | cons l ls ih =>
    intro g p q h
    rcases hg : goodParts l with _ | ⟨⟨a, b, c⟩⟩
    · rw [read_data_cons_bad hg] at h
      simpa [List.filterMap_cons, hg] using ih g p q h
    · have h3 := goodParts_inv hg
      cases hpf : pf c with
      | none => rw [read_data_cons_pf_none h3 hpf] at h; simp at h
      | some qc =>
        cases hrd : read_data pf ls with
        | none => rw [read_data_cons_tail_none h3 hpf hrd] at h; simp at h
        | some gpq =>
          obtain ⟨gs, ps, qs⟩ := gpq
          rw [read_data_cons_tail_some h3 hpf hrd] at h
          simp only [Option.some_inj, Prod.mk.injEq] at h
          obtain ⟨rfl, rfl, rfl⟩ := h
          obtain ⟨e1, e2, e3, e4, e5⟩ := ih gs ps qs hrd
          refine ⟨?_, ?_, ?_, ?_, ?_⟩
          · simp [List.filterMap_cons, hg, e1]
          · simp [List.filterMap_cons, hg, e2]
          · simp [e3]
          · simp [e4]
          · simp only [List.filterMap_cons, hg]
            exact List.Forall₂.cons hpf e5

/-- C7: the corpus reader silently skips every line that does not split
into exactly three tab-separated fields, fails (with the `float` parse
error, modelled as `none`) as soon as a retained line's third field does
not parse, and on success returns three equal-length sequences with the
records in input-line order. -/
theorem claim_C7_read_data (pf : String → Option ℚ) (lines : List String) :
    ((read_data pf lines).isSome = true ↔
      ∀ t ∈ lines.filterMap goodParts, (pf t.2.2).isSome = true) ∧
    (∀ (l : String) (ls : List String), (pyFields l).length ≠ 3 →
      read_data pf (l :: ls) = read_data pf ls) ∧
    (∀ (l : String) (ls : List String) (a b c : String),
      goodParts l = some (a, b, c) → pf c = none → read_data pf (l :: ls) = none) ∧
    (∀ (g p : List String) (q : List ℚ), read_data pf lines = some (g, p, q) →
      g = (lines.filterMap goodParts).map (fun t => t.1) ∧
      p = (lines.filterMap goodParts).map (fun t => t.2.1) ∧
      g.length = p.length ∧ p.length = q.length ∧
      List.Forall₂ (fun t x => pf t.2.2 = some x) (lines.filterMap goodParts) q) := by
  refine ⟨read_data_isSome pf lines, ?_, ?_, read_data_success pf lines⟩
  · intro l ls harity
    exact read_data_cons_bad (goodParts_none_of_bad_arity harity)
  · intro l ls a b c hg hpf
    exact read_data_cons_pf_none (goodParts_inv hg) hpf

/-- A concrete stand-in for Python `float` parsing used in the C7 witness. -/
def pfW : String → Option ℚ :=
  fun s => if s = "0.5" then some (1 / 2) else none

/-- C7 witness: a malformed line is skipped, records come out in order,
and an unparsable confidence aborts. -/
theorem claim_C7_witness :
    ((pyFields "bad line").length ≠ 3
      ∧ goodParts "g\tp\tnope" = some ("g", "p", "nope") ∧ pfW "nope" = none) ∧
    read_data pfW ("bad line" :: ["g\tp\t0.5"]) = read_data pfW ["g\tp\t0.5"] ∧
    read_data pfW ["g\tp\tnope", "x\ty\t0.5"] = none :=
  ⟨⟨by decide, by decide, by decide⟩,
    (claim_C7_read_data pfW ["g\tp\t0.5"]).2.1 "bad line" ["g\tp\t0.5"] (by decide),
    (claim_C7_read_data pfW ["x\ty\t0.5"]).2.2.1 "g\tp\tnope" ["x\ty\t0.5"] "g" "p" "nope"
      (by decide) (by decide)⟩

/-! ### Claims about the Candidate Generator -/

theorem foldl_min_le (l : List Nat) : ∀ (a : Nat), l.foldl min a ≤ a := by
  induction l with
  | nil => intro a; simp
  | cons b t ih =>
    intro a
    calc (b :: t).foldl min a = t.foldl min (min a b) := rfl
      _ ≤ min a b := ih (min a b)
      _ ≤ a := min_le_left _ _

theorem foldl_min_le_mem (l : List Nat) : ∀ (a x : Nat), x ∈ l → l.foldl min a ≤ x := by
  induction l with
  | nil => intro a x hx; cases hx
  | cons b t ih =>
    intro a x hx
    rcases List.mem_cons.mp hx with rfl | hx
    · calc (x :: t).foldl min a = t.foldl min (min a x) := rfl
        _ ≤ min a x := foldl_min_le t _
        _ ≤ x := min_le_right _ _
    · exact ih (min a b) x hx

theorem foldl_min_cases (l : List Nat) : ∀ (a : Nat), l.foldl min a = a ∨ l.foldl min a ∈ l := by
  induction l with
  | nil => intro a; left; rfl
  | cons b t ih =>
    intro a
    rcases ih (min a b) with h | h
    · rcases min_choice a b with hab | hab
      · left; rw [show (b :: t).foldl min a = t.foldl min (min a b) from rfl, h, hab]
      · right; rw [show (b :: t).foldl min a = t.foldl min (min a b) from rfl, h, hab]
        exact List.mem_cons_self _ _
    · right
      exact List.mem_cons_of_mem _ (by rw [show (b :: t).foldl min a = t.foldl min (min a b) from rfl]; exact h)

theorem listMin_le {l : List Nat} {x : Nat} (hx : x ∈ l) : listMin l ≤ x := by
  cases l with
  | nil => cases hx
  | cons a t =>
    rcases List.mem_cons.mp hx with rfl | hx
    · exact foldl_min_le t x
    · exact foldl_min_le_mem t a x hx

theorem listMin_mem {l : List Nat} (h : l ≠ []) : listMin l ∈ l := by
  cases l with
  | nil => exact absurd rfl h
  | cons a t =>
    rcases foldl_min_cases t a with h' | h'
    · rw [listMin, h']; exact List.mem_cons_self _ _
    · exact List.mem_cons_of_mem _ h'

theorem listMin_eq_of_perm {l1 l2 : List Nat} (h : l1.Perm l2) : listMin l1 = listMin l2 := by
  cases l1 with
  | nil =>
    have : l2 = [] := h.symm.eq_nil
    rw [this]
  | cons a t =>
    have h1 : (a :: t) ≠ [] := by simp
    have h2 : l2 ≠ [] := by
      intro hnil
      rw [hnil] at h
      exact h1 h.eq_nil
    exact Nat.le_antisymm
      (listMin_le (h.mem_iff.mpr (listMin_mem h2)))
      (listMin_le (h.mem_iff.mp (listMin_mem h1)))

theorem distancesFor_snd (p : String) (cands : List String) :
    (distancesFor p cands).map Prod.snd = cands.map fun w => editDist p w := by
  simp [distancesFor, List.map_map, Function.comp_def]

theorem tiedFor_filter (dict : List String) (p : String) (fc : Char) :
    tiedFor dict p fc
      = (candidatesFor dict fc).filter fun w => editDist p w == minDistFor dict p fc := by
  rw [tiedFor, distancesFor]
  induction candidatesFor dict fc with
  | nil => rfl
  | cons w t ih =>
    simp only [List.map_cons, List.filter_cons]
    by_cases h : (editDist p w == minDistFor dict p fc) = true
    · simp only [h, if_pos]
      simp only [List.map_cons]
      rw [ih]
    · simp only [h]
      simp only [Bool.false_eq_true, if_false]
      rw [ih]

theorem zip_get?_iff {α β : Type} (l1 : List α) : ∀ (l2 : List β) (i : Nat) (x : α × β),
    ((l1.zip l2).get? i = some x ↔ l1.get? i = some x.1 ∧ l2.get? i = some x.2) := by
  induction l1 with
  | nil => intro l2 i x; simp
  | cons a t ih =>
    intro l2 i x
    cases l2 with
    | nil => simp
    | cons b s =>
      cases i with
      | zero =>
        simp only [List.zip_cons_cons, List.get?_cons_zero, Option.some_inj]
        constructor
        · rintro rfl; exact ⟨rfl, rfl⟩
        · rintro ⟨h1, h2⟩
          obtain ⟨x1, x2⟩ := x
          simp_all
      | succ i =>
        simp only [List.zip_cons_cons, List.get?_cons_succ]
        exact ih s i x

theorem reviewAt_eq_some_iff {dict : List String} {probT : ℚ} {distT : Nat} {idx : Nat}
    {p : String} {c : ℚ} {item : ReviewItem} :
    reviewAt dict probT distT idx p c = some item ↔
      (is_telugu_word p = true ∧ p ∉ dict ∧ c ≤ probT ∧
       ∃ fc tl, p.data = fc :: tl ∧
         candidatesFor dict fc ≠ [] ∧
         minDistFor dict p fc ≤ distT ∧
         1 < (tiedFor dict p fc).length ∧
         item = ⟨idx, p, c, tiedFor dict p fc⟩) := by
  constructor
  · intro h
    unfold reviewAt at h
    split at h
    · cases h
    · next hguard =>
      push_neg at hguard
      obtain ⟨htel, hdict, hlt⟩ := hguard
      have htel' : is_telugu_word p = true := by simpa using htel
      split at h
      · cases h
      · next fc tl hdata =>
        split_ifs at h with hemp hmin htie
        have hcand : candidatesFor dict fc ≠ [] := by
          intro hnil
          exact hemp (by rw [distancesFor, hnil]; rfl)
        exact ⟨htel', hdict, hlt, fc, tl, hdata, hcand, not_lt.mp hmin, htie,
          (Option.some_inj.mp h).symm⟩
  · rintro ⟨htel, hdict, hle, fc, tl, hdata, hcand, hmin, htie, rfl⟩
    have hguard : ¬ (is_telugu_word p = false ∨ p ∈ dict ∨ probT < c) := by
      push_neg
      exact ⟨by simp [htel], hdict, hle⟩
    have hemp : ¬ distancesFor p (candidatesFor dict fc) = [] := by
      rw [distancesFor]
      simpa using hcand
    unfold reviewAt
    rw [if_neg hguard, hdata]
    show (if distancesFor p (candidatesFor dict fc) = [] then none
      else if distT < minDistFor dict p fc then none
      else if 1 < (tiedFor dict p fc).length then
        some (⟨idx, p, c, tiedFor dict p fc⟩ : ReviewItem)
      else none) = some ⟨idx, p, c, tiedFor dict p fc⟩
    rw [if_neg hemp, if_neg (not_lt.mpr hmin), if_pos htie]

theorem reviewAt_index {dict : List String} {probT : ℚ} {distT : Nat} {idx : Nat}
    {p : String} {c : ℚ} {item : ReviewItem}
    (h : reviewAt dict probT distT idx p c = some item) : item.index = idx := by
  obtain ⟨_, _, _, fc, tl, _, _, _, _, rfl⟩ := reviewAt_eq_some_iff.mp h
  rfl

theorem mem_reviewLoop {dict : List String} {probT : ℚ} {distT : Nat} :
    ∀ {n : Nat} {l : List (String × ℚ)} {item : ReviewItem},
    (item ∈ reviewLoop dict probT distT n l ↔
      ∃ j pc, l.get? j = some pc ∧ reviewAt dict probT distT (n + j) pc.1 pc.2 = some item) := by
  intro n l
  induction l generalizing n with
  | nil => simp [reviewLoop]
  | cons pc0 rest ih =>
    intro item
    obtain ⟨p, c⟩ := pc0
    rw [reviewLoop]
    cases hr : reviewAt dict probT distT n p c with
    | none =>
      rw [ih]
      constructor
      · rintro ⟨j, pc, hget, hrev⟩
        refine ⟨j + 1, pc, by simpa using hget, ?_⟩
        have harith : n + 1 + j = n + (j + 1) := by omega
        rwa [harith] at hrev
      · rintro ⟨j, pc, hget, hrev⟩
        cases j with
        | zero =>
          simp only [List.get?_cons_zero, Option.some_inj] at hget
          subst hget
          rw [Nat.add_zero] at hrev
          rw [hr] at hrev
          cases hrev
        | succ j =>
          refine ⟨j, pc, by simpa using hget, ?_⟩
          have harith : n + (j + 1) = n + 1 + j := by omega
          rwa [harith] at hrev
    | some it =>
      simp only [List.mem_cons]
      rw [ih]
      constructor
      · rintro (rfl | ⟨j, pc, hget, hrev⟩)
        · exact ⟨0, (p, c), rfl, by rw [Nat.add_zero]; exact hr⟩
        · refine ⟨j + 1, pc, by simpa using hget, ?_⟩
          have harith : n + 1 + j = n + (j + 1) := by omega
          rwa [harith] at hrev
      · rintro ⟨j, pc, hget, hrev⟩
        cases j with
        | zero =>
          simp only [List.get?_cons_zero, Option.some_inj] at hget
          subst hget
          rw [Nat.add_zero, hr] at hrev
          exact Or.inl (Option.some_inj.mp hrev).symm
        | succ j =>
          refine Or.inr ⟨j, pc, by simpa using hget, ?_⟩
          have harith : n + (j + 1) = n + 1 + j := by omega
          rwa [harith] at hrev

theorem one_lt_length_iff_pair {α : Type} {l : List α} (hnd : l.Nodup) :
    1 < l.length ↔ ∃ a ∈ l, ∃ b ∈ l, a ≠ b := by
  constructor
  · intro h
    match l, hnd, h with
    | a :: b :: t, hnd, _ =>
      refine ⟨a, List.mem_cons_self _ _, b,
        List.mem_cons_of_mem _ (List.mem_cons_self _ _),
        fun heq => (List.nodup_cons.mp hnd).1 (heq ▸ List.mem_cons_self _ _)⟩
  · rintro ⟨a, ha, b, hb, hab⟩
    cases l with
    | nil => cases ha
    | cons x t =>
      cases t with
      | nil =>
        rw [List.mem_singleton] at ha hb
        exact absurd (ha.trans hb.symm) hab
      | cons y s =>
        simp only [List.length_cons]
        omega

theorem mem_candidatesFor {dict : List String} {fc : Char} {w : String} :
    w ∈ candidatesFor dict fc ↔ w ∈ dict ∧ startswith1 w fc = true := by
  simp [candidatesFor, List.mem_filter]

theorem minDistFor_eq_listMin (dict : List String) (p : String) (fc : Char) :
    minDistFor dict p fc = listMin ((candidatesFor dict fc).map fun w => editDist p w) := by
  rw [minDistFor, distancesFor_snd]

theorem minDistFor_spec {dict : List String} {p : String} {fc : Char}
    (h : candidatesFor dict fc ≠ []) :
    (∃ w ∈ candidatesFor dict fc, editDist p w = minDistFor dict p fc) ∧
    ∀ w ∈ candidatesFor dict fc, minDistFor dict p fc ≤ editDist p w := by
  rw [minDistFor_eq_listMin]
  constructor
  · have hne : ((candidatesFor dict fc).map fun w => editDist p w) ≠ [] := by
      simpa using h
    have := listMin_mem hne
    obtain ⟨w, hw, heq⟩ := List.mem_map.mp this
    exact ⟨w, hw, heq⟩
  · intro w hw
    exact listMin_le (List.mem_map.mpr ⟨w, hw, rfl⟩)

theorem minDistFor_unique {dict : List String} {p : String} {fc : Char} {dmin : Nat}
    (h : candidatesFor dict fc ≠ [])
    (hmem : ∃ w ∈ candidatesFor dict fc, editDist p w = dmin)
    (hlb : ∀ w ∈ candidatesFor dict fc, dmin ≤ editDist p w) :
    dmin = minDistFor dict p fc := by
  obtain ⟨hm, hl⟩ := minDistFor_spec (p := p) h
  obtain ⟨w0, hw0, he0⟩ := hm
  obtain ⟨w1, hw1, he1⟩ := hmem
  exact Nat.le_antisymm (he0 ▸ hlb w0 hw0) (he1 ▸ hl w1 hw1)

/-- C1: the generator emits a ReviewItem at position `i` iff the
prediction is a script word, not an exact dictionary member, its
confidence is not strictly above `prob_threshold` (equality is still
reviewed), some dictionary word shares its first character, the minimum
Levenshtein distance `d_min` over that restricted set is `≤`
`dist_threshold`, and more than one word achieves `d_min`; in particular
an exactly-one-closest-match case emits nothing. -/
theorem claim_C1_emission (dict : List String) (probT : ℚ) (distT : Nat)
    (preds : List String) (probs : List ℚ) (i : Nat) (p : String) (c : ℚ)
    (hnd : dict.Nodup) (hp : preds.get? i = some p) (hc : probs.get? i = some c) :
    ((∃ item ∈ review dict probT distT preds probs, item.index = i) ↔
      (is_telugu_word p = true ∧ p ∉ dict ∧ c ≤ probT ∧
       ∃ fc, p.data.head? = some fc ∧
         (∃ w ∈ dict, startswith1 w fc = true) ∧
         ∃ dmin,
           (∃ w ∈ candidatesFor dict fc, editDist p w = dmin) ∧
           (∀ w ∈ candidatesFor dict fc, dmin ≤ editDist p w) ∧
           dmin ≤ distT ∧
           (∃ w1 ∈ candidatesFor dict fc, ∃ w2 ∈ candidatesFor dict fc,
             w1 ≠ w2 ∧ editDist p w1 = dmin ∧ editDist p w2 = dmin))) := by
  constructor
  · rintro ⟨item, hmem, hidx⟩
    rw [review] at hmem
    obtain ⟨j, pc, hget, hrev⟩ := mem_reviewLoop.mp hmem
    rw [Nat.zero_add] at hrev
    have hj : j = i := by rw [← hidx, reviewAt_index hrev]
    subst hj
    obtain ⟨hgp, hgc⟩ := (zip_get?_iff preds probs j pc).mp hget
    have hpc1 : pc.1 = p := by rw [hgp] at hp; exact Option.some_inj.mp hp
    have hpc2 : pc.2 = c := by rw [hgc] at hc; exact Option.some_inj.mp hc
    rw [hpc1, hpc2] at hrev
    obtain ⟨htel, hdict, hle, fc, tl, hdata, hcand, hmin, htie, -⟩ :=
      reviewAt_eq_some_iff.mp hrev
    refine ⟨htel, hdict, hle, fc, by rw [hdata]; rfl, ?_, minDistFor dict p fc,
      (minDistFor_spec hcand).1, (minDistFor_spec hcand).2, hmin, ?_⟩
    · obtain ⟨w, t, hwt⟩ := List.exists_cons_of_ne_nil hcand
      have hw : w ∈ candidatesFor dict fc := by rw [hwt]; exact List.mem_cons_self _ _
      obtain ⟨hwd, hws⟩ := mem_candidatesFor.mp hw
      exact ⟨w, hwd, hws⟩
    · have hnt : (tiedFor dict p fc).Nodup := by
        rw [tiedFor_filter]
        exact (hnd.filter _).filter _
      obtain ⟨a, ha, b, hb, hab⟩ := (one_lt_length_iff_pair hnt).mp htie
      rw [tiedFor_filter] at ha hb
      obtain ⟨hac, hae⟩ := List.mem_filter.mp ha
      obtain ⟨hbc, hbe⟩ := List.mem_filter.mp hb
      exact ⟨a, hac, b, hbc, hab, beq_iff_eq.mp hae, beq_iff_eq.mp hbe⟩
  · rintro ⟨htel, hdict, hle, fc, hhead, ⟨w, hwd, hws⟩, dmin, hmemd, hlb, hdle,
      w1, hw1, w2, hw2, hne12, hd1, hd2⟩
    obtain ⟨fc', tl, hdata⟩ : ∃ fc' tl, p.data = fc' :: tl := by
      cases hpd : p.data with
      | nil => rw [hpd] at hhead; cases hhead
      | cons x xs => exact ⟨x, xs, rfl⟩
    have hfc : fc' = fc := by
      rw [hdata] at hhead
      exact Option.some_inj.mp hhead
    rw [hfc] at hdata
    have hcand : candidatesFor dict fc ≠ [] :=
      List.ne_nil_of_mem (mem_candidatesFor.mpr ⟨hwd, hws⟩)
    have hdm : dmin = minDistFor dict p fc := minDistFor_unique hcand hmemd hlb
    have htie : 1 < (tiedFor dict p fc).length := by
      have hnt : (tiedFor dict p fc).Nodup := by
        rw [tiedFor_filter]
        exact (hnd.filter _).filter _
      rw [one_lt_length_iff_pair hnt, tiedFor_filter]
      refine ⟨w1, List.mem_filter.mpr ⟨hw1, ?_⟩, w2, List.mem_filter.mpr ⟨hw2, ?_⟩, hne12⟩
      · rw [beq_iff_eq, hd1, hdm]
      · rw [beq_iff_eq, hd2, hdm]
    have hrev : reviewAt dict probT distT i p c
        = some ⟨i, p, c, tiedFor dict p fc⟩ :=
      reviewAt_eq_some_iff.mpr
        ⟨htel, hdict, hle, fc, tl, hdata, hcand, by rw [← hdm]; exact hdle, htie, rfl⟩
    refine ⟨⟨i, p, c, tiedFor dict p fc⟩, ?_, rfl⟩
    rw [review]
    refine mem_reviewLoop.mpr ⟨i, (p, c), (zip_get?_iff preds probs i (p, c)).mpr ⟨hp, hc⟩, ?_⟩
    rw [Nat.zero_add]
    exact hrev

/-- C1 witness: with dictionary `{అఆ, అఇ}`, prediction `అ` at position 0
with confidence 0 and thresholds 1 and 2, an item is emitted and all the
flag conditions hold. -/
theorem claim_C1_witness :
    ((["అఆ", "అఇ"] : List String).Nodup
      ∧ (["అ"] : List String).get? 0 = some "అ"
      ∧ ([(0 : ℚ)] : List ℚ).get? 0 = some 0) ∧
    (is_telugu_word "అ" = true ∧ "అ" ∉ (["అఆ", "అఇ"] : List String) ∧ (0 : ℚ) ≤ 1 ∧
      ∃ fc, ("అ" : String).data.head? = some fc ∧
        (∃ w ∈ (["అఆ", "అఇ"] : List String), startswith1 w fc = true) ∧
        ∃ dmin,
          (∃ w ∈ candidatesFor ["అఆ", "అఇ"] fc, editDist "అ" w = dmin) ∧
          (∀ w ∈ candidatesFor ["అఆ", "అఇ"] fc, dmin ≤ editDist "అ" w) ∧
          dmin ≤ 2 ∧
          (∃ w1 ∈ candidatesFor ["అఆ", "అఇ"] fc, ∃ w2 ∈ candidatesFor ["అఆ", "అఇ"] fc,
            w1 ≠ w2 ∧ editDist "అ" w1 = dmin ∧ editDist "అ" w2 = dmin)) :=
  ⟨⟨by decide, rfl, rfl⟩,
    (claim_C1_emission ["అఆ", "అఇ"] 1 2 ["అ"] [0] 0 "అ" 0
      (by decide) rfl rfl).mp (by decide)⟩

/-- C2: for every emitted ReviewItem, all candidates share the flagged
word's first character, all candidates are at one and the same edit
distance from the flagged word, and that distance is the true minimum
over the entire first-character-restricted dictionary subset. -/
theorem claim_C2_candidates_invariant (dict : List String) (probT : ℚ) (distT : Nat)
    (preds : List String) (probs : List ℚ) (item : ReviewItem)
    (hmem : item ∈ review dict probT distT preds probs) :
    item.candidates ≠ [] ∧
    ∃ fc, item.word.data.head? = some fc ∧
      (∀ w ∈ item.candidates, startswith1 w fc = true) ∧
      ∃ d, (∀ w ∈ item.candidates, editDist item.word w = d) ∧
        (∀ w ∈ dict, startswith1 w fc = true → d ≤ editDist item.word w) := by
  rw [review] at hmem
  obtain ⟨j, pc, hget, hrev⟩ := mem_reviewLoop.mp hmem
  obtain ⟨htel, hdict, hle, fc, tl, hdata, hcand, hmin, htie, hitem⟩ :=
    reviewAt_eq_some_iff.mp hrev
  subst hitem
  refine ⟨?_, fc, by show pc.1.data.head? = some fc; rw [hdata]; rfl, ?_,
    minDistFor dict pc.1 fc, ?_, ?_⟩
  · intro hnil
    have h' : tiedFor dict pc.1 fc = [] := hnil
    rw [h'] at htie
    simp at htie
  · intro w hw
    have : w ∈ (candidatesFor dict fc).filter
        fun w => editDist pc.1 w == minDistFor dict pc.1 fc := by
      rw [← tiedFor_filter]
      exact hw
    exact (mem_candidatesFor.mp (List.mem_filter.mp this).1).2
  · intro w hw
    have : w ∈ (candidatesFor dict fc).filter
        fun w => editDist pc.1 w == minDistFor dict pc.1 fc := by
      rw [← tiedFor_filter]
      exact hw
    exact beq_iff_eq.mp (List.mem_filter.mp this).2
  · intro w hwd hws
    exact (minDistFor_spec hcand).2 w (mem_candidatesFor.mpr ⟨hwd, hws⟩)

/-- C2 witness: the invariant at the concrete emitted item. -/
theorem claim_C2_witness :
    ((⟨0, "అ", 0, ["అఆ", "అఇ"]⟩ : ReviewItem) ∈ review ["అఆ", "అఇ"] 1 2 ["అ"] [0]) ∧
    ((⟨0, "అ", 0, ["అఆ", "అఇ"]⟩ : ReviewItem).candidates ≠ [] ∧
      ∃ fc, (⟨0, "అ", 0, ["అఆ", "అఇ"]⟩ : ReviewItem).word.data.head? = some fc ∧
        (∀ w ∈ (⟨0, "అ", 0, ["అఆ", "అఇ"]⟩ : ReviewItem).candidates,
          startswith1 w fc = true) ∧
        ∃ d, (∀ w ∈ (⟨0, "అ", 0, ["అఆ", "అఇ"]⟩ : ReviewItem).candidates,
            editDist (⟨0, "అ", 0, ["అఆ", "అఇ"]⟩ : ReviewItem).word w = d) ∧
          (∀ w ∈ (["అఆ", "అఇ"] : List String), startswith1 w fc = true →
            d ≤ editDist (⟨0, "అ", 0, ["అఆ", "అఇ"]⟩ : ReviewItem).word w)) :=
  ⟨by decide,
    claim_C2_candidates_invariant ["అఆ", "అఇ"] 1 2 ["అ"] [0]
      ⟨0, "అ", 0, ["అఆ", "అఇ"]⟩ (by decide)⟩

theorem candidatesFor_perm {dict dict2 : List String} (h : dict.Perm dict2) (fc : Char) :
    (candidatesFor dict fc).Perm (candidatesFor dict2 fc) :=
  h.filter _

theorem minDistFor_perm {dict dict2 : List String} (h : dict.Perm dict2)
    (p : String) (fc : Char) : minDistFor dict p fc = minDistFor dict2 p fc := by
  rw [minDistFor_eq_listMin, minDistFor_eq_listMin]
  exact listMin_eq_of_perm ((candidatesFor_perm h fc).map _)

theorem tiedFor_perm {dict dict2 : List String} (h : dict.Perm dict2)
    (p : String) (fc : Char) : (tiedFor dict p fc).Perm (tiedFor dict2 p fc) := by
  rw [tiedFor_filter, tiedFor_filter, minDistFor_perm h]
  exact (candidatesFor_perm h fc).filter _

theorem reviewAt_perm {dict dict2 : List String} (h : dict.Perm dict2)
    (probT : ℚ) (distT : Nat) (idx : Nat) (p : String) (c : ℚ) :
    (reviewAt dict probT distT idx p c = none ∧ reviewAt dict2 probT distT idx p c = none) ∨
    (∃ it1 it2, reviewAt dict probT distT idx p c = some it1 ∧
      reviewAt dict2 probT distT idx p c = some it2 ∧
      it1.index = it2.index ∧ it1.word = it2.word ∧ it1.prob = it2.prob ∧
      it1.candidates.Perm it2.candidates) := by
  cases h1 : reviewAt dict probT distT idx p c with
  | some it1 =>
    obtain ⟨htel, hdict, hle, fc, tl, hdata, hcand, hmin, htie, hitem⟩ :=
      reviewAt_eq_some_iff.mp h1
    have h2 : reviewAt dict2 probT distT idx p c = some ⟨idx, p, c, tiedFor dict2 p fc⟩ := by
      refine reviewAt_eq_some_iff.mpr ⟨htel, fun hm => hdict (h.mem_iff.mpr hm), hle,
        fc, tl, hdata, ?_, ?_, ?_, rfl⟩
      · intro hnil
        have hpc := candidatesFor_perm h fc
        rw [hnil] at hpc
        exact hcand hpc.eq_nil
      · rw [← minDistFor_perm h]
        exact hmin
      · rw [← (tiedFor_perm h p fc).length_eq]
        exact htie
    right
    subst hitem
    exact ⟨⟨idx, p, c, tiedFor dict p fc⟩, ⟨idx, p, c, tiedFor dict2 p fc⟩,
      rfl, h2, rfl, rfl, rfl, tiedFor_perm h p fc⟩
  | none =>
    left
    refine ⟨rfl, ?_⟩
    cases h2 : reviewAt dict2 probT distT idx p c with
    | none => rfl
    | some it2 =>
      obtain ⟨htel, hdict, hle, fc, tl, hdata, hcand, hmin, htie, hitem⟩ :=
        reviewAt_eq_some_iff.mp h2
      have h1' : reviewAt dict probT distT idx p c
          = some ⟨idx, p, c, tiedFor dict p fc⟩ := by
        refine reviewAt_eq_some_iff.mpr ⟨htel, fun hm => hdict (h.mem_iff.mp hm), hle,
          fc, tl, hdata, ?_, ?_, ?_, rfl⟩
        · intro hnil
          have hpc := candidatesFor_perm h fc
          rw [hnil] at hpc
          exact hcand hpc.symm.eq_nil
        · rw [minDistFor_perm h]
          exact hmin
        · rw [(tiedFor_perm h p fc).length_eq]
          exact htie
      rw [h1] at h1'
      cases h1'

theorem reviewLoop_index_lb {dict : List String} {probT : ℚ} {distT : Nat}
    {n : Nat} {l : List (String × ℚ)} {item : ReviewItem}
    (h : item ∈ reviewLoop dict probT distT n l) : n ≤ item.index := by
  obtain ⟨j, pc, hget, hrev⟩ := mem_reviewLoop.mp h
  rw [reviewAt_index hrev]
  omega

theorem reviewLoop_pairwise (dict : List String) (probT : ℚ) (distT : Nat) :
    ∀ (n : Nat) (l : List (String × ℚ)),
    List.Pairwise (fun a b => a.index < b.index) (reviewLoop dict probT distT n l) := by
  intro n l
  induction l generalizing n with
  | nil => exact List.Pairwise.nil
  | cons pc rest ih =>
    obtain ⟨p, c⟩ := pc
    rw [reviewLoop]
    cases hr : reviewAt dict probT distT n p c with
    | none => exact ih (n + 1)
    | some it =>
      rw [List.pairwise_cons]
      refine ⟨?_, ih (n + 1)⟩
      intro b hb
      have h1 : it.index = n := reviewAt_index hr
      have h2 : n + 1 ≤ b.index := reviewLoop_index_lb hb
      omega

theorem reviewLoop_perm {dict dict2 : List String} (h : dict.Perm dict2)
    (probT : ℚ) (distT : Nat) : ∀ (n : Nat) (l : List (String × ℚ)),
    List.Forall₂
      (fun a b => a.index = b.index ∧ a.word = b.word ∧ a.prob = b.prob ∧
        a.candidates.Perm b.candidates)
      (reviewLoop dict probT distT n l) (reviewLoop dict2 probT distT n l) := by
  intro n l
  induction l generalizing n with
  | nil => exact List.Forall₂.nil
  | cons pc rest ih =>
    obtain ⟨p, c⟩ := pc
    rw [reviewLoop, reviewLoop]
    rcases reviewAt_perm h probT distT n p c with ⟨h1, h2⟩ | ⟨it1, it2, h1, h2, hrel⟩
    · rw [h1, h2]
      exact ih (n + 1)
    · rw [h1, h2]
      exact List.Forall₂.cons hrel (ih (n + 1))

/-- C3 counterexample: two iteration orders of the same dictionary set
(the same two words, permuted) yield different generator output — the
tied candidate list comes out in a different order — so the output is
not stable across runs with different set-iteration orders, refuting the
claim as stated. -/
theorem claim_C3_counterexample :
    (["అఆ", "అఇ"] : List String).Perm ["అఇ", "అఆ"] ∧
    review ["అఆ", "అఇ"] 1 2 ["అ"] [0] ≠ review ["అఇ", "అఆ"] 1 2 ["అ"] [0] :=
  ⟨List.Perm.swap "అఇ" "అఆ" [], by decide⟩

/-- C3 (amended): ReviewItems are produced in strictly ascending position
order, and the generator is deterministic once the dictionary's iteration
order is fixed; permuting the dictionary's iteration order preserves the
flagged positions, words and confidences and the candidate *sets*, but
may permute each candidate list — the code leaves the set's iteration
order unspecified, so candidate order is not reproducible across runs. -/
theorem claim_C3_amended (dict dict2 : List String) (probT : ℚ) (distT : Nat)
    (preds : List String) (probs : List ℚ) (hperm : dict.Perm dict2) :
    List.Pairwise (fun a b => a.index < b.index) (review dict probT distT preds probs) ∧
    List.Forall₂
      (fun a b => a.index = b.index ∧ a.word = b.word ∧ a.prob = b.prob ∧
        a.candidates.Perm b.candidates)
      (review dict probT distT preds probs) (review dict2 probT distT preds probs) := by
  constructor
  · rw [review]
    exact reviewLoop_pairwise dict probT distT 0 (preds.zip probs)
  · rw [review, review]
    exact reviewLoop_perm hperm probT distT 0 (preds.zip probs)

/-- C3 witness for the amended theorem, at the counterexample's inputs. -/
theorem claim_C3_witness :
    ((["అఆ", "అఇ"] : List String).Perm ["అఇ", "అఆ"]) ∧
    (List.Pairwise (fun a b => a.index < b.index) (review ["అఆ", "అఇ"] 1 2 ["అ"] [0]) ∧
      List.Forall₂
        (fun a b => a.index = b.index ∧ a.word = b.word ∧ a.prob = b.prob ∧
          a.candidates.Perm b.candidates)
        (review ["అఆ", "అఇ"] 1 2 ["అ"] [0]) (review ["అఇ", "అఆ"] 1 2 ["అ"] [0])) :=
  ⟨List.Perm.swap "అఇ" "అఆ" [],
    claim_C3_amended ["అఆ", "అఇ"] ["అఇ", "అఆ"] 1 2 ["అ"] [0]
      (List.Perm.swap "అఇ" "అఆ" [])⟩

end OCRTool
